import Mathlib

/-!
Verification of the seat-allocation engine of the ros-marinus seating script
(`src/main.py`, chiefly `assign_seats`, lines 200-311).

The engine is embedded shallowly:

* Python `datetime`-or-`None` timestamps become the inductive `TS`
  (`TS.noTime` for `None`, `TS.maxTime` for the `datetime.max` parse-failure
  sentinel, `TS.valid k` for a successfully parsed time, keys totally
  ordered by `Nat`).
* The `OrderedDict` inventory (block name → ordered list of seat ids)
  becomes an association list `Inventory`; Python dict/`OrderedDict`
  semantics (unique keys, insertion order preserved, `setdefault` appends a
  fresh key at the end) are mirrored by first-match association-list
  operations.
* The `preserved_tickets_lookup` dict keyed by
  `(ticket_holder_name, allocation_time)` becomes the association list
  `Lookup` with explicit membership, `get(key, 0)`, in-place increment /
  decrement mirroring the dict operations in the source.
* The two warning `print` calls of the preservation step (seat not found in
  block / block not found) are modelled by the `unmatched` counter of
  `Step1State`: it increments exactly when the source prints one of these
  warnings and skips the inventory removal.

Mutation is replaced by explicit state passing: `process_preserved` is the
body of the `for ps in preserved_seats` loop, `process_request` the body of
the `for request in audience_requests` loop, and `assign_seats` folds them
in source order.
-/

abbrev SeatId := String
abbrev BlockName := String

/-- A timestamp as produced by `parse_timestamp` in `main.py`: either the
Python `None`, the `datetime.max` sentinel returned on parse failure, or a
successfully parsed time (keys abstracted to `Nat`). -/
inductive TS where
  | noTime : TS
  | maxTime : TS
  | valid : Nat → TS
deriving DecidableEq, Repr

/-- An audience request record as built by `load_audience_requests`. -/
structure Request where
  timestamp : TS
  member_name : String
  ticket_holder_name : String
  num_tickets : Nat
  pickup_method : String
deriving DecidableEq, Repr

/-- A preserved-seat record as built by `load_preserved_seats`. -/
structure PreservedSeat where
  block : BlockName
  seat_number : SeatId
  member_name : String
  ticket_holder_name : String
  pickup_method : String
  allocation_time : TS
deriving DecidableEq, Repr

/-- One seat assignment, the dict appended to `assigned_seats_by_block`
in `assign_seats`. -/
structure SeatInfo where
  seat_number : SeatId
  member_name : String
  ticket_holder_name : String
  pickup_method : String
  timestamp : TS
deriving DecidableEq, Repr

/-- Embedding of `available_seats_ordered`: ordered mapping block name → ordered list of
available seat ids. -/
abbrev Inventory := List (BlockName × List SeatId)

/-- Embedding of `assigned_seats_by_block`: ordered mapping block name → list of seat
assignments. -/
abbrev Assigned := List (BlockName × List SeatInfo)

/-- Embedding of `preserved_tickets_lookup`: dict keyed by
`(ticket_holder_name, allocation-time key)` with ticket counts. -/
abbrev Lookup := List ((String × Nat) × Nat)

/-- Python `key in preserved_tickets_lookup`. -/
def lookupMem (l : Lookup) (k : String × Nat) : Bool :=
  match l with
  | [] => false
  | (k', _) :: rest => if k' = k then true else lookupMem rest k

/-- Python `preserved_tickets_lookup.get(key, 0)` (also indexing when the
key is known to be present). -/
def lookupGet (l : Lookup) (k : String × Nat) : Nat :=
  match l with
  | [] => 0
  | (k', c) :: rest => if k' = k then c else lookupGet rest k

/-- Python `preserved_tickets_lookup[key] = preserved_tickets_lookup.get(key, 0) + 1`:
update in place when the key exists, else append a fresh entry. -/
def lookupIncr (l : Lookup) (k : String × Nat) : Lookup :=
  match l with
  | [] => [(k, 1)]
  | (k', c) :: rest =>
      if k' = k then (k', c + 1) :: rest else (k', c) :: lookupIncr rest k

/-- Python `preserved_tickets_lookup[key] -= n` (key present). -/
def lookupDec (l : Lookup) (k : String × Nat) (n : Nat) : Lookup :=
  match l with
  | [] => []
  | (k', c) :: rest =>
      if k' = k then (k', c - n) :: rest else (k', c) :: lookupDec rest k n

/-- Python `lst.remove(s)` for a list known to be scanned for `s`:
remove the first occurrence of `s`, leaving order otherwise untouched. -/
def remove_first (l : List SeatId) (s : SeatId) : List SeatId :=
  match l with
  | [] => []
  | x :: xs => if x = s then xs else x :: remove_first xs s

/-- The preserved-seat inventory adjustment of `assign_seats`
(`main.py` lines 235-246): if the block exists and holds the seat, remove
the first occurrence (returning `true`); otherwise leave the inventory
unchanged (returning `false`, the two warning branches). -/
def inv_remove (inv : Inventory) (b : BlockName) (s : SeatId) :
    Inventory × Bool :=
  match inv with
  | [] => ([], false)
  | (n, seats) :: rest =>
      if n = b then
        if s ∈ seats then ((n, remove_first seats s) :: rest, true)
        else ((n, seats) :: rest, false)
      else
        let r := inv_remove rest b s
        ((n, seats) :: r.1, r.2)

/-- Python `assigned_seats_by_block.setdefault(b, []).append(s)`. -/
def setdefault_append (a : Assigned) (b : BlockName) (s : SeatInfo) :
    Assigned :=
  match a with
  | [] => [(b, [s])]
  | (n, l) :: rest =>
      if n = b then (n, l ++ [s]) :: rest
      else (n, l) :: setdefault_append rest b s

/-- Python `assigned_seats_by_block.setdefault(b, []).extend(infos)`. -/
def setdefault_extend (a : Assigned) (b : BlockName) (infos : List SeatInfo) :
    Assigned :=
  match a with
  | [] => [(b, infos)]
  | (n, l) :: rest =>
      if n = b then (n, l ++ infos) :: rest
      else (n, l) :: setdefault_extend rest b infos

/-- State of the preserved-seats loop (`main.py` lines 216-252).
`unmatched` counts the warnings for seats/blocks not found (and hence
skipped removals). -/
structure Step1State where
  assigned : Assigned
  available : Inventory
  lookup : Lookup
  unmatched : Nat
deriving DecidableEq, Repr

/-- The assignment dict appended for a preserved seat
(`main.py` lines 223-233). -/
def preserved_info (ps : PreservedSeat) : SeatInfo :=
  { seat_number := ps.seat_number
    member_name := ps.member_name
    ticket_holder_name := ps.ticket_holder_name
    pickup_method := ps.pickup_method
    timestamp := ps.allocation_time }

/-- Body of the `for ps in preserved_seats` loop of `assign_seats`
(`main.py` lines 217-252): record the assignment, attempt the inventory
removal (warning -> `unmatched + 1`), and index the binding in the lookup
when its allocation time is valid (not `None`, not `datetime.max`). -/
def process_preserved (st : Step1State) (ps : PreservedSeat) : Step1State :=
  let assigned := setdefault_append st.assigned ps.block (preserved_info ps)
  let r := inv_remove st.available ps.block ps.seat_number
  let unmatched := if r.2 then st.unmatched else st.unmatched + 1
  let lookup :=
    match ps.allocation_time with
    | TS.valid k => lookupIncr st.lookup (ps.ticket_holder_name, k)
    | _ => st.lookup
  ⟨assigned, r.1, lookup, unmatched⟩

/-- State of the audience-requests loop (`main.py` lines 257-308). -/
structure Step2State where
  assigned : Assigned
  available : Inventory
  lookup : Lookup
  unassigned : List Request
deriving DecidableEq, Repr

/-- The block scan of `assign_seats` (`main.py` lines 286-305): find the
first block whose available-seat count is at least `n`, pop `n` seats from
its front; returns the block name, the popped seats and the updated
inventory, or `none` when no block is large enough. -/
def find_block (inv : Inventory) (n : Nat) :
    Option (BlockName × List SeatId × Inventory) :=
  match inv with
  | [] => Option.none
  | (name, seats) :: rest =>
      if n ≤ seats.length then
        some (name, seats.take n, (name, seats.drop n) :: rest)
      else
        match find_block rest n with
        | some (nm, taken, rest') => some (nm, taken, (name, seats) :: rest')
        | Option.none => Option.none

/-- The `seat_info` dict built for one newly popped seat
(`main.py` lines 291-297). -/
def seat_info_of (r : Request) (s : SeatId) : SeatInfo :=
  { seat_number := s
    member_name := r.member_name
    ticket_holder_name := r.ticket_holder_name
    pickup_method := r.pickup_method
    timestamp := r.timestamp }

/-- The non-preserved branch of the request loop
(`main.py` lines 285-308): seat the whole request in the first block with
enough capacity, else append it to `unassigned_requests`. -/
def normal_assign (st : Step2State) (r : Request) : Step2State :=
  match find_block st.available r.num_tickets with
  | some (name, taken, available') =>
      { st with
          assigned :=
            setdefault_extend st.assigned name (taken.map (seat_info_of r))
          available := available' }
  | Option.none => { st with unassigned := st.unassigned ++ [r] }

/-- The preservation-match test of the request loop
(`main.py` lines 262-270): the request timestamp must be truthy and distinct
from `datetime.max`, the `(holder, timestamp)` key must be present in the
lookup, and its count must cover the party size. -/
def fulfilled_by_preserved (lookup : Lookup) (r : Request) : Bool :=
  match r.timestamp with
  | TS.valid k =>
      lookupMem lookup (r.ticket_holder_name, k) &&
        decide (r.num_tickets ≤ lookupGet lookup (r.ticket_holder_name, k))
  | _ => false

/-- Body of the `for request in audience_requests` loop
(`main.py` lines 257-308). -/
def process_request (st : Step2State) (r : Request) : Step2State :=
  match r.timestamp with
  | TS.valid k =>
      let key := (r.ticket_holder_name, k)
      if lookupMem st.lookup key ∧ r.num_tickets ≤ lookupGet st.lookup key then
        { st with lookup := lookupDec st.lookup key r.num_tickets }
      else normal_assign st r
  | _ => normal_assign st r

/-- Embedding of `assign_seats(audience_requests, available_seats_ordered, preserved_seats)`
(`main.py` lines 200-311): initialise the per-block assignment lists, run the
preserved-seats loop, then the audience-requests loop, and return
`(assigned_seats_by_block, unassigned_requests, available_seats_ordered)`. -/
def assign_seats (audience_requests : List Request)
    (available_seats_ordered : Inventory)
    (preserved_seats : List PreservedSeat) :
    Assigned × List Request × Inventory :=
  let init_assigned : Assigned :=
    available_seats_ordered.map (fun p => (p.1, []))
  let st1 : Step1State :=
    preserved_seats.foldl process_preserved
      ⟨init_assigned, available_seats_ordered, [], 0⟩
  let st2 : Step2State :=
    audience_requests.foldl process_request
      ⟨st1.assigned, st1.available, st1.lookup, []⟩
  (st2.assigned, st2.unassigned, st2.available)

/-- The number of "preserved seat / block not found" warnings emitted by the
preserved-seats loop of `assign_seats` (the two `print` branches at
`main.py` lines 239-246). -/
def unmatched_count (available_seats_ordered : Inventory)
    (preserved_seats : List PreservedSeat) : Nat :=
  (preserved_seats.foldl process_preserved
      ⟨available_seats_ordered.map (fun p => (p.1, [])),
        available_seats_ordered, [], 0⟩).unmatched

/-- Total number of seats in an inventory, summed over blocks. -/
def inv_total (inv : Inventory) : Nat :=
  match inv with
  | [] => 0
  | (_, seats) :: rest => seats.length + inv_total rest

/-- Total number of seat assignments, summed over blocks. -/
def assigned_total (a : Assigned) : Nat :=
  match a with
  | [] => 0
  | (_, l) :: rest => l.length + assigned_total rest

/-- All seat ids of an inventory, in block order. -/
def inv_seat_ids (inv : Inventory) : List SeatId :=
  match inv with
  | [] => []
  | (_, seats) :: rest => seats ++ inv_seat_ids rest

/-- All assigned seat ids, in block order. -/
def assigned_seat_ids (a : Assigned) : List SeatId :=
  match a with
  | [] => []
  | (_, l) :: rest => l.map SeatInfo.seat_number ++ assigned_seat_ids rest

/-- First-match lookup in the per-block assignment lists (empty when the
block is absent). -/
def assigned_at (a : Assigned) (b : BlockName) : List SeatInfo :=
  match a with
  | [] => []
  | (n, l) :: rest => if n = b then l else assigned_at rest b

/-- The lookup built by the preserved-seats loop of `assign_seats`
(`main.py` lines 248-252), for a given initial inventory: the
`preserved_tickets_lookup` dict at the end of Step 1. -/
def preserved_tickets_lookup (available_seats_ordered : Inventory)
    (preserved_seats : List PreservedSeat) : Lookup :=
  (preserved_seats.foldl process_preserved
      ⟨available_seats_ordered.map (fun p => (p.1, [])),
        available_seats_ordered, [], 0⟩).lookup

/-- The sort key `int(k.split("-")[1])` of `load_available_seats`
(`main.py` line 60), rendered total: inputs are well-formed block names
such as `block-3`; a malformed name, which would raise upstream in the
source, is sent to `0`. -/
def block_key (k : BlockName) : Nat :=
  (((k.splitOn "-").getD 1 "").toNat?).getD 0

/-- The sorting step of `load_available_seats` (`main.py` lines 59-67):
order the deserialized JSON object's block names by the number embedded in
each name; every block keeps its own seat list. -/
def load_available_seats (data : List (BlockName × List SeatId)) : Inventory :=
  let sorted_block_names :=
    (data.map Prod.fst).mergeSort (fun a b => decide (block_key a ≤ block_key b))
  sorted_block_names.map (fun k => (k, ((List.lookup k data).getD [])))

/-- Sample inventory: one block with one seat. -/
def inv_c1 : Inventory := [("block-1", ["A1"])]

/-- Sample preserved binding naming a block absent from the inventory. -/
def ps_c1 : List PreservedSeat :=
  [⟨"block-9", "A1", "m", "X", "p", TS.noTime⟩]

/-- Sample request for one seat. -/
def req_c2 : Request := ⟨TS.noTime, "m", "Z", 1, "p"⟩

/-- Sample inventory with two blocks. -/
def inv_w : Inventory :=
  [("block-1", ["A1", "A2", "A3"]), ("block-2", ["B1", "B2"])]

/-- Sample preserved binding whose seat is present in its block. -/
def ps_w : List PreservedSeat :=
  [⟨"block-1", "A1", "m", "X", "p", TS.valid 5⟩]

/-- Sample request queue with one two-seat request. -/
def reqs_w : List Request := [⟨TS.valid 1, "m", "Y", 2, "p"⟩]

/-- Sample mid-run state: block-1 holds one seat, block-2 holds two. -/
def st_c3 : Step2State :=
  ⟨[("block-1", []), ("block-2", [])],
    [("block-1", ["A1"]), ("block-2", ["B1", "B2"])], [], []⟩

/-- Sample two-seat request. -/
def r_c3 : Request := ⟨TS.valid 3, "m", "X", 2, "p"⟩

/-- Sample state whose lookup holds three preserved tickets for X. -/
def st_c4 : Step2State :=
  ⟨[("block-1", [])], [("block-1", ["A1"])], [(("X", 5), 3)], []⟩

/-- Sample request matching the preserved key of `st_c4`. -/
def r_c4 : Request := ⟨TS.valid 5, "m", "X", 2, "p"⟩

/-- Sample earlier request in the queue. -/
def A_c5 : Request := ⟨TS.valid 1, "m", "A", 2, "p"⟩

/-- Sample later request in the queue. -/
def B_c5 : Request := ⟨TS.valid 2, "m", "B", 2, "p"⟩

/-- Sample state with five seats across two blocks. -/
def st_c6 : Step2State :=
  ⟨[("block-1", []), ("block-2", [])],
    [("block-1", ["A1", "A2", "A3"]), ("block-2", ["B1", "B2"])], [], []⟩

/-- Sample four-seat request that fits in no single block of `st_c6`. -/
def r_c6 : Request := ⟨TS.valid 4, "m", "X", 4, "p"⟩

/-- Sample Step 1 state with one two-seat block. -/
def st1_c7 : Step1State := ⟨[], [("block-1", ["A1", "A2"])], [], 0⟩

/-- Sample preserved binding for the second seat of `st1_c7`. -/
def ps_c7 : PreservedSeat := ⟨"block-1", "A2", "m", "X", "p", TS.valid 7⟩

/-- Sample state whose lookup covers only one of the two requested seats. -/
def st_c10 : Step2State :=
  ⟨[("block-1", [])], [("block-1", ["A1", "A2"])], [(("X", 5), 1)], []⟩

/-- Sample two-seat request partially covered by the lookup of `st_c10`. -/
def r_c10 : Request := ⟨TS.valid 5, "m", "X", 2, "p"⟩

/-! ## Branch characterisations of the request loop -/

theorem process_request_fulfilled (st : Step2State) (r : Request) (k : Nat)
    (ht : r.timestamp = TS.valid k)
    (hmem : lookupMem st.lookup (r.ticket_holder_name, k) = true)
    (hle : r.num_tickets ≤ lookupGet st.lookup (r.ticket_holder_name, k)) :
    process_request st r =
      { st with
          lookup := lookupDec st.lookup (r.ticket_holder_name, k) r.num_tickets } := by
  obtain ⟨ts, mn, thn, n, pm⟩ := r
  simp only [Request.mk.injEq] at ht ⊢
  cases ts with
  | valid k' =>
      cases ht
      simp only [process_request, if_pos (And.intro hmem hle)]
  | noTime => cases ht
  | maxTime => cases ht

theorem process_request_not_fulfilled (st : Step2State) (r : Request)
    (hnp : fulfilled_by_preserved st.lookup r = false) :
    process_request st r = normal_assign st r := by
  obtain ⟨ts, mn, thn, n, pm⟩ := r
  cases ts with
  | valid k =>
      simp only [fulfilled_by_preserved, Bool.and_eq_false_iff] at hnp
      have hcond :
          ¬ (lookupMem st.lookup (thn, k) = true ∧
              n ≤ lookupGet st.lookup (thn, k)) := by
        rintro ⟨h1, h2⟩
        rcases hnp with h | h
        · exact absurd h1 (by simp [h])
        · exact absurd h2 (by simpa using h)
      simp only [process_request, if_neg hcond]
  | noTime => simp only [process_request]
  | maxTime => simp only [process_request]

theorem normal_assign_lookup (st : Step2State) (r : Request) :
    (normal_assign st r).lookup = st.lookup := by
  unfold normal_assign
  cases h : find_block st.available r.num_tickets with
  | none => rfl
  | some v => obtain ⟨name, taken, avail'⟩ := v; rfl

/-! ## Properties of the block scan `find_block` -/

theorem find_block_eq_of (pre post : Inventory) (name : BlockName)
    (seats : List SeatId) (n : Nat)
    (hpre : ∀ p ∈ pre, p.2.length < n) (hn : n ≤ seats.length) :
    find_block (pre ++ (name, seats) :: post) n =
      some (name, seats.take n, pre ++ (name, seats.drop n) :: post) := by
  induction pre with
  | nil => simp [find_block, hn]
  | cons p rest ih =>
      obtain ⟨pn, pseats⟩ := p
      have h1 : ¬ n ≤ pseats.length := by
        have := hpre (pn, pseats) (by simp)
        simp at this ⊢
        omega
      have ih' := ih (fun p hp => hpre p (by simp [hp]))
      simp only [List.cons_append, find_block, if_neg h1, List.append_eq, ih']

theorem find_block_none_iff (inv : Inventory) (n : Nat) :
    find_block inv n = Option.none ↔ ∀ p ∈ inv, p.2.length < n := by
  induction inv with
  | nil => simp [find_block]
  | cons p rest ih =>
      obtain ⟨pn, pseats⟩ := p
      by_cases h : n ≤ pseats.length
      · constructor
        · intro hc
          simp only [find_block, if_pos h] at hc
          cases hc
        · intro hall
          have := hall (pn, pseats) (by simp)
          simp at this
          omega
      · simp only [find_block, if_neg h]
        cases hfb : find_block rest n with
        | some v =>
            obtain ⟨nm, tk, rest'⟩ := v
            constructor
            · intro hc; cases hc
            · intro hall
              have h2 : ∀ p ∈ rest, p.2.length < n :=
                fun q hq => hall q (by simp [hq])
              rw [ih.mpr h2] at hfb
              cases hfb
        | none =>
            constructor
            · intro _ p hp
              rcases List.mem_cons.mp hp with hp1 | hp2
              · subst hp1
                simp
                omega
              · exact ih.mp hfb p hp2
            · intro _; rfl

theorem find_block_some_spec (inv : Inventory) (n : Nat) (name : BlockName)
    (taken : List SeatId) (inv' : Inventory)
    (hfb : find_block inv n = some (name, taken, inv')) :
    ∃ pre seats post,
      inv = pre ++ (name, seats) :: post ∧
      (∀ p ∈ pre, p.2.length < n) ∧
      n ≤ seats.length ∧
      taken = seats.take n ∧
      inv' = pre ++ (name, seats.drop n) :: post := by
  induction inv generalizing inv' with
  | nil => simp [find_block] at hfb
  | cons p rest ih =>
      obtain ⟨pn, pseats⟩ := p
      by_cases h : n ≤ pseats.length
      · rw [show find_block ((pn, pseats) :: rest) n =
            some (pn, pseats.take n, (pn, pseats.drop n) :: rest) by
              simp only [find_block, if_pos h]] at hfb
        obtain ⟨h1, h2, h3⟩ := by simpa using hfb
        refine ⟨[], pseats, rest, by simp [h1], by simp, h, h2.symm, ?_⟩
        simp [← h3, h1]
      · have hstep : find_block ((pn, pseats) :: rest) n =
            match find_block rest n with
            | some (nm, tk, rest') => some (nm, tk, (pn, pseats) :: rest')
            | Option.none => Option.none := by
          simp only [find_block, if_neg h]
        rw [hstep] at hfb
        cases hfb2 : find_block rest n with
        | none => rw [hfb2] at hfb; cases hfb
        | some v =>
            obtain ⟨nm, tk, rest'⟩ := v
            rw [hfb2] at hfb
            obtain ⟨h1, h2, h3⟩ := by simpa using hfb
            subst h1
            subst h2
            obtain ⟨pre, seats, post, e1, e2, e3, e4, e5⟩ := ih rest' hfb2
            refine ⟨(pn, pseats) :: pre, seats, post, by simp [e1], ?_, e3, e4, ?_⟩
            · intro q hq
              rcases List.mem_cons.mp hq with hq1 | hq2
              · subst hq1
                simp
                omega
              · exact e2 q hq2
            · simp [← h3, e5]

/-! ## Seat-count bookkeeping -/

theorem assigned_total_setdefault_append (a : Assigned) (b : BlockName)
    (s : SeatInfo) :
    assigned_total (setdefault_append a b s) = assigned_total a + 1 := by
  induction a with
  | nil => simp [setdefault_append, assigned_total]
  | cons p rest ih =>
      obtain ⟨pn, pl⟩ := p
      by_cases h : pn = b
      · simp [setdefault_append, if_pos h, assigned_total]
        omega
      · simp [setdefault_append, if_neg h, assigned_total, ih]
        omega

theorem assigned_total_setdefault_extend (a : Assigned) (b : BlockName)
    (infos : List SeatInfo) :
    assigned_total (setdefault_extend a b infos) =
      assigned_total a + infos.length := by
  induction a with
  | nil => simp [setdefault_extend, assigned_total]
  | cons p rest ih =>
      obtain ⟨pn, pl⟩ := p
      by_cases h : pn = b
      · simp [setdefault_extend, if_pos h, assigned_total]
        omega
      · simp [setdefault_extend, if_neg h, assigned_total, ih]
        omega

theorem remove_first_length (l : List SeatId) (s : SeatId) (h : s ∈ l) :
    (remove_first l s).length + 1 = l.length := by
  induction l with
  | nil => cases h
  | cons x xs ih =>
      by_cases hx : x = s
      · simp [remove_first, if_pos hx]
      · have hmem : s ∈ xs := by
          rcases List.mem_cons.mp h with h1 | h2
          · exact absurd h1.symm hx
          · exact h2
        simp [remove_first, if_neg hx]
        have := ih hmem
        omega

theorem inv_remove_not_found (inv : Inventory) (b : BlockName) (s : SeatId)
    (h : (inv_remove inv b s).2 = false) :
    (inv_remove inv b s).1 = inv := by
  induction inv with
  | nil => rfl
  | cons p rest ih =>
      obtain ⟨pn, pseats⟩ := p
      by_cases hb : pn = b
      · by_cases hs : s ∈ pseats
        · simp [inv_remove, if_pos hb, if_pos hs] at h
        · simp [inv_remove, if_pos hb, if_neg hs]
      · simp only [inv_remove, if_neg hb] at h ⊢
        simp [ih h]

theorem inv_remove_found_total (inv : Inventory) (b : BlockName) (s : SeatId)
    (h : (inv_remove inv b s).2 = true) :
    inv_total (inv_remove inv b s).1 + 1 = inv_total inv := by
  induction inv with
  | nil => simp [inv_remove] at h
  | cons p rest ih =>
      obtain ⟨pn, pseats⟩ := p
      by_cases hb : pn = b
      · by_cases hs : s ∈ pseats
        · simp only [inv_remove, if_pos hb, if_pos hs, inv_total]
          have := remove_first_length pseats s hs
          omega
        · simp [inv_remove, if_pos hb, if_neg hs] at h
      · simp only [inv_remove, if_neg hb] at h ⊢
        simp only [inv_total]
        have := ih h
        omega

theorem inv_total_append (xs ys : Inventory) :
    inv_total (xs ++ ys) = inv_total xs + inv_total ys := by
  induction xs with
  | nil => simp [inv_total]
  | cons p rest ih =>
      obtain ⟨pn, pseats⟩ := p
      simp only [List.cons_append, inv_total, List.append_eq, ih]
      omega

theorem process_preserved_total (st : Step1State) (ps : PreservedSeat) :
    assigned_total (process_preserved st ps).assigned +
        inv_total (process_preserved st ps).available + st.unmatched =
      assigned_total st.assigned + inv_total st.available +
        (process_preserved st ps).unmatched := by
  simp only [process_preserved]
  rw [assigned_total_setdefault_append]
  cases hf : (inv_remove st.available ps.block ps.seat_number).2 with
  | true =>
      have h2 := inv_remove_found_total st.available ps.block ps.seat_number hf
      simp only [hf, if_true]
      omega
  | false =>
      have h2 := inv_remove_not_found st.available ps.block ps.seat_number hf
      simp only [hf, Bool.false_eq_true, if_false, h2]
      omega

theorem step1_fold_total (ps : List PreservedSeat) (st : Step1State) :
    assigned_total (ps.foldl process_preserved st).assigned +
        inv_total (ps.foldl process_preserved st).available + st.unmatched =
      assigned_total st.assigned + inv_total st.available +
        (ps.foldl process_preserved st).unmatched := by
  induction ps generalizing st with
  | nil => simp [List.foldl]
  | cons p rest ih =>
      simp only [List.foldl]
      have h1 := process_preserved_total st p
      have h2 := ih (process_preserved st p)
      omega

theorem process_request_total (st : Step2State) (r : Request) :
    assigned_total (process_request st r).assigned +
        inv_total (process_request st r).available =
      assigned_total st.assigned + inv_total st.available := by
  by_cases hf : fulfilled_by_preserved st.lookup r = true
  · obtain ⟨ts, mn, thn, n, pm⟩ := r
    cases ts with
    | valid k =>
        simp only [fulfilled_by_preserved] at hf
        obtain ⟨h1, h2⟩ := by simpa using hf
        rw [process_request_fulfilled _ _ k rfl h1 h2]
    | noTime => simp [fulfilled_by_preserved] at hf
    | maxTime => simp [fulfilled_by_preserved] at hf
  · rw [process_request_not_fulfilled st r (by simpa using hf)]
    unfold normal_assign
    cases hfb : find_block st.available r.num_tickets with
    | none => rfl
    | some v =>
        obtain ⟨name, taken, avail'⟩ := v
        obtain ⟨pre, seats, post, e1, e2, e3, e4, e5⟩ :=
          find_block_some_spec _ _ _ _ _ hfb
        simp only
        rw [assigned_total_setdefault_extend]
        have hlen : taken.length = r.num_tickets := by
          rw [e4]
          simp
          omega
        have htot : inv_total st.available = inv_total avail' + r.num_tickets := by
          rw [e1, e5, inv_total_append, inv_total_append]
          simp only [inv_total]
          have hd : (List.drop r.num_tickets seats).length =
              seats.length - r.num_tickets := by simp
          omega
        simp [hlen]
        omega

theorem step2_fold_total (rs : List Request) (st : Step2State) :
    assigned_total (rs.foldl process_request st).assigned +
        inv_total (rs.foldl process_request st).available =
      assigned_total st.assigned + inv_total st.available := by
  induction rs generalizing st with
  | nil => simp [List.foldl]
  | cons r rest ih =>
      simp only [List.foldl]
      rw [ih (process_request st r), process_request_total]

theorem assigned_total_init (inv : Inventory) :
    assigned_total (inv.map (fun p => (p.1, ([] : List SeatInfo)))) = 0 := by
  induction inv with
  | nil => rfl
  | cons p rest ih => simp [assigned_total, ih]

/-! ## Seat-id multiset bookkeeping -/

theorem perm_move (x a v v' : List SeatId) (h : v.Perm (x ++ v')) :
    ((x ++ a) ++ v').Perm (a ++ v) := by
  refine ((?_ : ((x ++ a) ++ v').Perm (a ++ (x ++ v'))).trans
    (List.Perm.append_left a h.symm))
  rw [← List.append_assoc]
  exact List.Perm.append_right v' List.perm_append_comm

theorem perm_swap_front (l1 l2 l3 : List SeatId) :
    (l1 ++ (l2 ++ l3)).Perm (l2 ++ (l1 ++ l3)) := by
  rw [← List.append_assoc, ← List.append_assoc]
  exact List.Perm.append_right l3 List.perm_append_comm

theorem remove_first_perm (l : List SeatId) (s : SeatId) (h : s ∈ l) :
    l.Perm (s :: remove_first l s) := by
  induction l with
  | nil => cases h
  | cons x xs ih =>
      by_cases hx : x = s
      · subst hx
        simp [remove_first]
      · have hmem : s ∈ xs := by
          rcases List.mem_cons.mp h with h1 | h2
          · exact absurd h1.symm hx
          · exact h2
        rw [remove_first, if_neg hx]
        exact ((ih hmem).cons x).trans (List.Perm.swap s x _)

theorem inv_seat_ids_append (xs ys : Inventory) :
    inv_seat_ids (xs ++ ys) = inv_seat_ids xs ++ inv_seat_ids ys := by
  induction xs with
  | nil => simp [inv_seat_ids]
  | cons p rest ih =>
      obtain ⟨pn, pseats⟩ := p
      simp [inv_seat_ids, List.append_eq, ih]

theorem assigned_seat_ids_setdefault_append (a : Assigned) (b : BlockName)
    (s : SeatInfo) :
    (assigned_seat_ids (setdefault_append a b s)).Perm
      (s.seat_number :: assigned_seat_ids a) := by
  induction a with
  | nil => simp [setdefault_append, assigned_seat_ids]
  | cons p rest ih =>
      obtain ⟨pn, pl⟩ := p
      by_cases h : pn = b
      · rw [setdefault_append, if_pos h]
        simp only [assigned_seat_ids, List.map_append]
        simp only [List.map_cons, List.map_nil, List.append_assoc, List.cons_append,
          List.nil_append]
        exact List.perm_middle
      · rw [setdefault_append, if_neg h]
        simp only [assigned_seat_ids]
        exact (List.Perm.append_left _ ih).trans List.perm_middle

theorem assigned_seat_ids_setdefault_extend (a : Assigned) (b : BlockName)
    (infos : List SeatInfo) :
    (assigned_seat_ids (setdefault_extend a b infos)).Perm
      (infos.map SeatInfo.seat_number ++ assigned_seat_ids a) := by
  induction a with
  | nil => simp [setdefault_extend, assigned_seat_ids]
  | cons p rest ih =>
      obtain ⟨pn, pl⟩ := p
      by_cases h : pn = b
      · rw [setdefault_extend, if_pos h]
        simp only [assigned_seat_ids, List.map_append, List.append_assoc]
        exact perm_swap_front _ _ _
      · rw [setdefault_extend, if_neg h]
        simp only [assigned_seat_ids]
        exact (List.Perm.append_left _ ih).trans (perm_swap_front _ _ _)

theorem inv_remove_found_perm (inv : Inventory) (b : BlockName) (s : SeatId)
    (h : (inv_remove inv b s).2 = true) :
    (inv_seat_ids inv).Perm (s :: inv_seat_ids (inv_remove inv b s).1) := by
  induction inv with
  | nil => simp [inv_remove] at h
  | cons p rest ih =>
      obtain ⟨pn, pseats⟩ := p
      by_cases hb : pn = b
      · by_cases hs : s ∈ pseats
        · rw [show inv_remove ((pn, pseats) :: rest) b s =
              ((pn, remove_first pseats s) :: rest, true) by
                simp [inv_remove, hb, hs]]
          simp only [inv_seat_ids]
          exact (List.Perm.append_right _ (remove_first_perm pseats s hs)).trans
            (by simp)
        · simp [inv_remove, hb, hs] at h
      · have hrw : inv_remove ((pn, pseats) :: rest) b s =
            ((pn, pseats) :: (inv_remove rest b s).1, (inv_remove rest b s).2) := by
          simp [inv_remove, hb]
        rw [hrw] at h ⊢
        simp only [inv_seat_ids]
        exact (List.Perm.append_left _ (ih h)).trans List.perm_middle

theorem assigned_seat_ids_init (inv : Inventory) :
    assigned_seat_ids (inv.map (fun p => (p.1, ([] : List SeatInfo)))) = [] := by
  induction inv with
  | nil => rfl
  | cons p rest ih => simp [assigned_seat_ids, ih]

/-! ## Seat-id conservation through the two loops -/

theorem process_preserved_unmatched (st : Step1State) (ps : PreservedSeat) :
    (process_preserved st ps).unmatched =
      if (inv_remove st.available ps.block ps.seat_number).2 then st.unmatched
      else st.unmatched + 1 := rfl

theorem process_preserved_unmatched_le (st : Step1State) (ps : PreservedSeat) :
    st.unmatched ≤ (process_preserved st ps).unmatched := by
  rw [process_preserved_unmatched]
  cases (inv_remove st.available ps.block ps.seat_number).2 <;> simp

theorem step1_unmatched_le (ps : List PreservedSeat) (st : Step1State) :
    st.unmatched ≤ (ps.foldl process_preserved st).unmatched := by
  induction ps generalizing st with
  | nil => simp
  | cons p rest ih =>
      simp only [List.foldl]
      exact (process_preserved_unmatched_le st p).trans (ih _)

theorem process_preserved_perm (st : Step1State) (ps : PreservedSeat)
    (hf : (inv_remove st.available ps.block ps.seat_number).2 = true) :
    (assigned_seat_ids (process_preserved st ps).assigned ++
        inv_seat_ids (process_preserved st ps).available).Perm
      (assigned_seat_ids st.assigned ++ inv_seat_ids st.available) := by
  have ha : (process_preserved st ps).assigned =
      setdefault_append st.assigned ps.block (preserved_info ps) := rfl
  have hv : (process_preserved st ps).available =
      (inv_remove st.available ps.block ps.seat_number).1 := rfl
  rw [ha, hv]
  have p1 := assigned_seat_ids_setdefault_append st.assigned ps.block
    (preserved_info ps)
  have p2 := inv_remove_found_perm st.available ps.block ps.seat_number hf
  have hseat : (preserved_info ps).seat_number = ps.seat_number := rfl
  rw [hseat] at p1
  refine (List.Perm.append_right _ p1).trans ?_
  exact perm_move [ps.seat_number] (assigned_seat_ids st.assigned)
    (inv_seat_ids st.available) _ p2

theorem step1_fold_perm (ps : List PreservedSeat) (st : Step1State)
    (h : (ps.foldl process_preserved st).unmatched = st.unmatched) :
    (assigned_seat_ids (ps.foldl process_preserved st).assigned ++
        inv_seat_ids (ps.foldl process_preserved st).available).Perm
      (assigned_seat_ids st.assigned ++ inv_seat_ids st.available) := by
  induction ps generalizing st with
  | nil => simp
  | cons p rest ih =>
      simp only [List.foldl] at h ⊢
      have le1 := process_preserved_unmatched_le st p
      have le2 := step1_unmatched_le rest (process_preserved st p)
      have heq : (process_preserved st p).unmatched = st.unmatched := by omega
      have hf : (inv_remove st.available p.block p.seat_number).2 = true := by
        rcases hb : (inv_remove st.available p.block p.seat_number).2 with _ | _
        · rw [process_preserved_unmatched, hb] at heq
          simp at heq
        · rfl
      have h2 : (rest.foldl process_preserved (process_preserved st p)).unmatched =
          (process_preserved st p).unmatched := by omega
      exact (ih (process_preserved st p) h2).trans (process_preserved_perm st p hf)

theorem process_request_perm (st : Step2State) (r : Request) :
    (assigned_seat_ids (process_request st r).assigned ++
        inv_seat_ids (process_request st r).available).Perm
      (assigned_seat_ids st.assigned ++ inv_seat_ids st.available) := by
  by_cases hfp : fulfilled_by_preserved st.lookup r = true
  · obtain ⟨ts, mn, thn, n, pm⟩ := r
    cases ts with
    | valid k =>
        simp only [fulfilled_by_preserved] at hfp
        obtain ⟨h1, h2⟩ := by simpa using hfp
        rw [process_request_fulfilled _ _ k rfl h1 h2]
    | noTime => simp [fulfilled_by_preserved] at hfp
    | maxTime => simp [fulfilled_by_preserved] at hfp
  · rw [process_request_not_fulfilled st r (by simpa using hfp)]
    unfold normal_assign
    cases hfb : find_block st.available r.num_tickets with
    | none => rfl
    | some v =>
        obtain ⟨name, taken, avail'⟩ := v
        obtain ⟨pre, seats, post, e1, e2, e3, e4, e5⟩ :=
          find_block_some_spec _ _ _ _ _ hfb
        simp only
        have p1 := assigned_seat_ids_setdefault_extend st.assigned name
          (taken.map (seat_info_of r))
        have hmap : (taken.map (seat_info_of r)).map SeatInfo.seat_number = taken := by
          rw [List.map_map]
          have : SeatInfo.seat_number ∘ seat_info_of r = id := by
            funext s
            rfl
          rw [this, List.map_id]
        rw [hmap] at p1
        have p2 : (inv_seat_ids st.available).Perm (taken ++ inv_seat_ids avail') := by
          rw [e1, e5, inv_seat_ids_append, inv_seat_ids_append]
          simp only [inv_seat_ids]
          rw [e4]
          conv_lhs => rw [← List.take_append_drop r.num_tickets seats]
          rw [List.append_assoc]
          exact perm_swap_front _ _ _
        refine (List.Perm.append_right _ p1).trans ?_
        exact perm_move taken (assigned_seat_ids st.assigned)
          (inv_seat_ids st.available) (inv_seat_ids avail') p2

theorem step2_fold_perm (rs : List Request) (st : Step2State) :
    (assigned_seat_ids (rs.foldl process_request st).assigned ++
        inv_seat_ids (rs.foldl process_request st).available).Perm
      (assigned_seat_ids st.assigned ++ inv_seat_ids st.available) := by
  induction rs generalizing st with
  | nil => simp
  | cons r rest ih =>
      simp only [List.foldl]
      exact (ih (process_request st r)).trans (process_request_perm st r)

/-! ## Lookup-dictionary lemmas -/

theorem lookupGet_lookupDec (l : Lookup) (k : String × Nat) (n : Nat) :
    lookupGet (lookupDec l k n) k = lookupGet l k - n := by
  induction l with
  | nil => simp [lookupDec, lookupGet]
  | cons e rest ih =>
      obtain ⟨k', c⟩ := e
      by_cases h : k' = k
      · simp [lookupDec, lookupGet, if_pos h]
      · simp [lookupDec, lookupGet, if_neg h, ih]

theorem lookupMem_lookupIncr (l : Lookup) (k' k : String × Nat)
    (h : lookupMem (lookupIncr l k') k = true) :
    k = k' ∨ lookupMem l k = true := by
  induction l with
  | nil =>
      simp [lookupIncr, lookupMem] at h
      subst h
      exact Or.inl rfl
  | cons e rest ih =>
      obtain ⟨ke, c⟩ := e
      by_cases he : ke = k'
      · rw [lookupIncr, if_pos he] at h
        rw [lookupMem] at h
        by_cases hk : ke = k
        · exact Or.inr (by rw [lookupMem, if_pos hk])
        · rw [if_neg hk] at h
          exact Or.inr (by rw [lookupMem, if_neg hk]; exact h)
      · rw [lookupIncr, if_neg he] at h
        rw [lookupMem] at h
        by_cases hk : ke = k
        · exact Or.inr (by rw [lookupMem, if_pos hk])
        · rw [if_neg hk] at h
          rcases ih h with h1 | h2
          · exact Or.inl h1
          · exact Or.inr (by rw [lookupMem, if_neg hk]; exact h2)

theorem process_preserved_lookup (st : Step1State) (ps : PreservedSeat) :
    (process_preserved st ps).lookup =
      match ps.allocation_time with
      | TS.valid k => lookupIncr st.lookup (ps.ticket_holder_name, k)
      | _ => st.lookup := rfl

theorem step1_lookup_mem (ps : List PreservedSeat) (st : Step1State)
    (key : String × Nat)
    (h : lookupMem (ps.foldl process_preserved st).lookup key = true) :
    lookupMem st.lookup key = true ∨
      ∃ b ∈ ps, b.ticket_holder_name = key.1 ∧
        b.allocation_time = TS.valid key.2 := by
  induction ps generalizing st with
  | nil => exact Or.inl h
  | cons p rest ih =>
      simp only [List.foldl] at h
      rcases ih (process_preserved st p) h with h1 | h2
      · rw [process_preserved_lookup] at h1
        cases hts : p.allocation_time with
        | valid k =>
            rw [hts] at h1
            rcases lookupMem_lookupIncr _ _ _ h1 with hk | hm
            · refine Or.inr ⟨p, by simp, ?_, ?_⟩
              · rw [hk]
              · rw [hts, hk]
            · exact Or.inl hm
        | noTime => rw [hts] at h1; exact Or.inl h1
        | maxTime => rw [hts] at h1; exact Or.inl h1
      · obtain ⟨b, hb, hname, hts⟩ := h2
        exact Or.inr ⟨b, by simp [hb], hname, hts⟩

/-! ## Decomposition of the preserved-seat removal -/

theorem remove_first_decomp (l : List SeatId) (s : SeatId) (h : s ∈ l) :
    ∃ l1 l2, l = l1 ++ s :: l2 ∧ s ∉ l1 ∧ remove_first l s = l1 ++ l2 := by
  induction l with
  | nil => cases h
  | cons x xs ih =>
      by_cases hx : x = s
      · subst hx
        exact ⟨[], xs, by simp, by simp, by simp [remove_first]⟩
      · have hmem : s ∈ xs := by
          rcases List.mem_cons.mp h with h1 | h2
          · exact absurd h1.symm hx
          · exact h2
        obtain ⟨l1, l2, e1, e2, e3⟩ := ih hmem
        refine ⟨x :: l1, l2, by simp [e1], ?_, by simp [remove_first, hx, e3]⟩
        intro hc
        rcases List.mem_cons.mp hc with h1 | h2
        · exact hx h1.symm
        · exact e2 h2

theorem inv_remove_found_iff (inv : Inventory) (b : BlockName) (s : SeatId) :
    (inv_remove inv b s).2 = true ↔
      ∃ pre seats post, inv = pre ++ (b, seats) :: post ∧
        b ∉ pre.map Prod.fst ∧ s ∈ seats := by
  induction inv with
  | nil =>
      simp only [inv_remove]
      constructor
      · intro h; cases h
      · rintro ⟨pre, seats, post, h, -, -⟩
        cases pre <;> simp at h
  | cons p rest ih =>
      obtain ⟨pn, pseats⟩ := p
      by_cases hb : pn = b
      · subst hb
        by_cases hs : s ∈ pseats
        · constructor
          · intro _
            exact ⟨[], pseats, rest, by simp, by simp, hs⟩
          · intro _
            simp [inv_remove, hs]
        · constructor
          · intro h
            simp [inv_remove, hs] at h
          · rintro ⟨pre, seats, post, e1, e2, e3⟩
            cases pre with
            | nil =>
                simp at e1
                obtain ⟨e4, e5⟩ := e1
                exact absurd (e4 ▸ e3) hs
            | cons q qre =>
                rw [List.cons_append] at e1
                injection e1 with e1a e1b
                exact absurd (by simp [← e1a]) e2
      · have hrw : inv_remove ((pn, pseats) :: rest) b s =
            ((pn, pseats) :: (inv_remove rest b s).1, (inv_remove rest b s).2) := by
          simp [inv_remove, hb]
        rw [hrw]
        simp only
        rw [ih]
        constructor
        · rintro ⟨pre, seats, post, e1, e2, e3⟩
          refine ⟨(pn, pseats) :: pre, seats, post, by simp [e1], ?_, e3⟩
          simp only [List.map_cons, List.mem_cons]
          rintro (h1 | h2)
          · exact hb h1.symm
          · exact e2 h2
        · rintro ⟨pre, seats, post, e1, e2, e3⟩
          cases pre with
          | nil =>
              simp at e1
              exact absurd e1.1.1 hb
          | cons q qre =>
              simp only [List.cons_append, List.cons.injEq] at e1
              refine ⟨qre, seats, post, e1.2, ?_, e3⟩
              simp only [List.map_cons, List.mem_cons] at e2
              intro hc
              exact e2 (Or.inr hc)

theorem inv_remove_found_decomp (inv : Inventory) (b : BlockName) (s : SeatId)
    (h : (inv_remove inv b s).2 = true) :
    ∃ pre l1 l2 post,
      inv = pre ++ (b, l1 ++ s :: l2) :: post ∧
      b ∉ pre.map Prod.fst ∧ s ∉ l1 ∧
      (inv_remove inv b s).1 = pre ++ (b, l1 ++ l2) :: post := by
  induction inv with
  | nil => simp [inv_remove] at h
  | cons p rest ih =>
      obtain ⟨pn, pseats⟩ := p
      by_cases hb : pn = b
      · subst hb
        by_cases hs : s ∈ pseats
        · obtain ⟨l1, l2, e1, e2, e3⟩ := remove_first_decomp pseats s hs
          refine ⟨[], l1, l2, rest, by simp [e1], by simp, e2, ?_⟩
          simp [inv_remove, hs, e3]
        · simp [inv_remove, hs] at h
      · have hrw : inv_remove ((pn, pseats) :: rest) b s =
            ((pn, pseats) :: (inv_remove rest b s).1, (inv_remove rest b s).2) := by
          simp [inv_remove, hb]
        rw [hrw] at h ⊢
        simp only at h
        obtain ⟨pre, l1, l2, post, e1, e2, e3, e4⟩ := ih h
        refine ⟨(pn, pseats) :: pre, l1, l2, post, by simp [e1], ?_, e3, by simp [e4]⟩
        simp only [List.map_cons, List.mem_cons]
        rintro (h1 | h2)
        · exact hb h1.symm
        · exact e2 h2

/-! ## Unassigned requests come from the input queue -/

theorem process_request_unassigned_mem (st : Step2State) (r r' : Request)
    (h : r' ∈ (process_request st r).unassigned) :
    r' ∈ st.unassigned ∨ r' = r := by
  by_cases hfp : fulfilled_by_preserved st.lookup r = true
  · obtain ⟨ts, mn, thn, n, pm⟩ := r
    cases ts with
    | valid k =>
        simp only [fulfilled_by_preserved] at hfp
        obtain ⟨h1, h2⟩ := by simpa using hfp
        rw [process_request_fulfilled _ _ k rfl h1 h2] at h
        exact Or.inl h
    | noTime => simp [fulfilled_by_preserved] at hfp
    | maxTime => simp [fulfilled_by_preserved] at hfp
  · rw [process_request_not_fulfilled st r (by simpa using hfp)] at h
    unfold normal_assign at h
    cases hfb : find_block st.available r.num_tickets with
    | none =>
        rw [hfb] at h
        simp only [List.mem_append, List.mem_singleton] at h
        exact h
    | some v =>
        obtain ⟨name, taken, avail'⟩ := v
        rw [hfb] at h
        exact Or.inl h

theorem step2_unassigned_mem (rs : List Request) (st : Step2State) (r' : Request)
    (h : r' ∈ (rs.foldl process_request st).unassigned) :
    r' ∈ st.unassigned ∨ r' ∈ rs := by
  induction rs generalizing st with
  | nil => exact Or.inl h
  | cons r rest ih =>
      simp only [List.foldl] at h
      rcases ih (process_request st r) h with h1 | h2
      · rcases process_request_unassigned_mem st r r' h1 with h3 | h4
        · exact Or.inl h3
        · exact Or.inr (by simp [h4])
      · exact Or.inr (by simp [h2])

/-! ## Remaining helper lemmas -/

theorem fulfilled_by_preserved_nil (r : Request) :
    fulfilled_by_preserved [] r = false := by
  cases h : r.timestamp <;> simp [fulfilled_by_preserved, h, lookupMem]

theorem assigned_at_setdefault_extend (a : Assigned) (b : BlockName)
    (infos : List SeatInfo) :
    assigned_at (setdefault_extend a b infos) b = assigned_at a b ++ infos := by
  induction a with
  | nil => simp [setdefault_extend, assigned_at]
  | cons p rest ih =>
      obtain ⟨pn, pl⟩ := p
      by_cases h : pn = b
      · simp [setdefault_extend, if_pos h, assigned_at, h]
      · simp [setdefault_extend, if_neg h, assigned_at, ih]

theorem assigned_at_init (inv : Inventory) (b : BlockName) :
    assigned_at (inv.map (fun p => (p.1, ([] : List SeatInfo)))) b = [] := by
  induction inv with
  | nil => rfl
  | cons p rest ih =>
      by_cases h : p.1 = b
      · simp [assigned_at, if_pos h]
      · simp only [List.map_cons, assigned_at, if_neg h]
        exact ih

theorem load_available_seats_sorted (data : List (BlockName × List SeatId)) :
    List.Pairwise (fun p q : BlockName × List SeatId => block_key p.1 ≤ block_key q.1)
      (load_available_seats data) := by
  unfold load_available_seats
  refine List.Pairwise.map _ (fun a b h => h) ?_
  have hs := @List.sorted_mergeSort BlockName
    (fun a b : BlockName => decide (block_key a ≤ block_key b))
    (fun a b c hab hbc => by
      simp only [decide_eq_true_eq] at hab hbc ⊢
      omega)
    (fun a b => by
      simp only [Bool.or_eq_true, decide_eq_true_eq]
      omega)
    (data.map Prod.fst)
  exact hs.imp (fun h => by simpa using h)

/-! ## Claim theorems -/

/-- C1, counterexample to the claim as stated: for the run with an empty
request queue, inventory `{block-1: [A1]}` and one preserved binding whose
block (`block-9`) is not in the inventory, the preserved binding is still
emitted as an Assignment while no seat is removed, so assigned seats plus
residual seats (1 + 1) exceed the original seat total (1). -/
theorem conservation_counterexample :
    ¬ (assigned_total (assign_seats [] inv_c1 ps_c1).1 +
        inv_total (assign_seats [] inv_c1 ps_c1).2.2 =
      inv_total inv_c1) := by decide

/-- C1 (amended): for every run of `assign_seats`, the number of seats
emitted as Assignments (preserved plus newly seated) plus the seats
remaining in the residual inventory equals the original seat total plus
the number of preserved bindings whose seat was not found in the inventory
(the warning cases); in particular the claimed conservation equation holds
exactly when every preserved binding's seat is found and removed. -/
theorem conservation_with_unmatched (reqs : List Request) (inv : Inventory)
    (ps : List PreservedSeat) :
    assigned_total (assign_seats reqs inv ps).1 +
        inv_total (assign_seats reqs inv ps).2.2 =
      inv_total inv + unmatched_count inv ps := by
  simp only [assign_seats, unmatched_count]
  have h0 := assigned_total_init inv
  have h1 := step1_fold_total ps
    ⟨inv.map (fun p => (p.1, ([] : List SeatInfo))), inv, [], 0⟩
  have h2 := step2_fold_total reqs
    ⟨(ps.foldl process_preserved
        ⟨inv.map (fun p => (p.1, ([] : List SeatInfo))), inv, [], 0⟩).assigned,
      (ps.foldl process_preserved
        ⟨inv.map (fun p => (p.1, ([] : List SeatInfo))), inv, [], 0⟩).available,
      (ps.foldl process_preserved
        ⟨inv.map (fun p => (p.1, ([] : List SeatInfo))), inv, [], 0⟩).lookup, []⟩
  dsimp only at h1 h2 ⊢
  omega

/-- C2, counterexample to the claim as stated: the inventory
`{block-1: [A1]}` holds each SeatId once, yet with a preserved binding
claiming seat `A1` in the unknown block `block-9` plus a one-seat request,
seat `A1` appears in two Assignments: once honoured for the preserved
binding (without inventory removal) and once newly allocated from
block-1. -/
theorem no_double_assignment_counterexample :
    (inv_seat_ids inv_c1).Nodup ∧
      ¬ (assigned_seat_ids (assign_seats [req_c2] inv_c1 ps_c1).1).Nodup := by
  decide

/-- C2 (amended): if the input inventory contains each SeatId at most once
and additionally every preserved binding's seat is found in its claimed
block (no unmatched-preservation warning), then no SeatId appears in more
than one Assignment across the whole output of `assign_seats`. -/
theorem no_double_assignment (reqs : List Request) (inv : Inventory)
    (ps : List PreservedSeat)
    (hnodup : (inv_seat_ids inv).Nodup)
    (hmatched : unmatched_count inv ps = 0) :
    (assigned_seat_ids (assign_seats reqs inv ps).1).Nodup := by
  simp only [assign_seats]
  simp only [unmatched_count] at hmatched
  have p1 := step1_fold_perm ps
    ⟨inv.map (fun p => (p.1, ([] : List SeatInfo))), inv, [], 0⟩
    (by dsimp only; omega)
  have p2 := step2_fold_perm reqs
    ⟨(ps.foldl process_preserved
        ⟨inv.map (fun p => (p.1, ([] : List SeatInfo))), inv, [], 0⟩).assigned,
      (ps.foldl process_preserved
        ⟨inv.map (fun p => (p.1, ([] : List SeatInfo))), inv, [], 0⟩).available,
      (ps.foldl process_preserved
        ⟨inv.map (fun p => (p.1, ([] : List SeatInfo))), inv, [], 0⟩).lookup, []⟩
  dsimp only at p1 p2 ⊢
  have hperm := p2.trans p1
  rw [assigned_seat_ids_init inv] at hperm
  simp only [List.nil_append] at hperm
  have hnd := (hperm.nodup_iff).mpr hnodup
  exact List.Nodup.of_append_left hnd

/-- C2 witness run: a concrete input satisfying both hypotheses of
`no_double_assignment`. -/
theorem no_double_assignment_witness :
    (assigned_seat_ids (assign_seats reqs_w inv_w ps_w).1).Nodup :=
  no_double_assignment reqs_w inv_w ps_w (by decide) (by decide)

/-- C3: for a request not satisfied by a preservation, when the block scan
succeeds the chosen block is the first (in inventory order) whose
available-seat count is at least the party size, every earlier block being
too small; the request's seats are exactly the first `party-size` seats of
that block (popped from the front), the step extends the assignment list of
that single block with all of them — each carrying the request's
holder-name, pickup-method and priority-key — and, for inventories built by
`load_available_seats`, inventory order is ascending block-index order. -/
theorem atomic_first_fit_placement (st : Step2State) (r : Request)
    (hnp : fulfilled_by_preserved st.lookup r = false)
    (name : BlockName) (taken : List SeatId) (avail' : Inventory)
    (hfb : find_block st.available r.num_tickets = some (name, taken, avail')) :
    (∃ pre seats post,
        st.available = pre ++ (name, seats) :: post ∧
        (∀ p ∈ pre, p.2.length < r.num_tickets) ∧
        r.num_tickets ≤ seats.length ∧
        taken = seats.take r.num_tickets ∧
        avail' = pre ++ (name, seats.drop r.num_tickets) :: post) ∧
    process_request st r =
      { st with
          assigned := setdefault_extend st.assigned name (taken.map (seat_info_of r))
          available := avail' } ∧
    (∀ info ∈ taken.map (seat_info_of r),
        info.ticket_holder_name = r.ticket_holder_name ∧
        info.pickup_method = r.pickup_method ∧
        info.timestamp = r.timestamp) ∧
    ∀ data : List (BlockName × List SeatId),
      List.Pairwise
        (fun p q : BlockName × List SeatId => block_key p.1 ≤ block_key q.1)
        (load_available_seats data) := by
  refine ⟨find_block_some_spec _ _ _ _ _ hfb, ?_, ?_, load_available_seats_sorted⟩
  · rw [process_request_not_fulfilled st r hnp]
    unfold normal_assign
    rw [hfb]
  · intro info hinfo
    obtain ⟨s, hs, rfl⟩ := List.mem_map.mp hinfo
    exact ⟨rfl, rfl, rfl⟩

/-- C3 witness run: in `st_c3`, block-1 (one seat) is too small for the
two-seat request `r_c3`, so block-2 supplies both seats from its front. -/
theorem atomic_first_fit_placement_witness :
    fulfilled_by_preserved st_c3.lookup r_c3 = false ∧
    find_block st_c3.available r_c3.num_tickets =
      some ("block-2", ["B1", "B2"], [("block-1", ["A1"]), ("block-2", [])]) ∧
    process_request st_c3 r_c3 =
      { st_c3 with
          assigned :=
            setdefault_extend st_c3.assigned "block-2"
              (["B1", "B2"].map (seat_info_of r_c3))
          available := [("block-1", ["A1"]), ("block-2", [])] } :=
  ⟨by decide, by decide,
    (atomic_first_fit_placement st_c3 r_c3 (by decide) "block-2" ["B1", "B2"]
        [("block-1", ["A1"]), ("block-2", [])] (by decide)).2.1⟩

/-- C4: a request whose (holder-name, priority-key) pair is present in the
lookup with remaining count at least the party size, and whose priority key
is valid, only decrements that entry by the party size — assigned seats,
inventory and unassigned list are untouched — and the lookup built by the
preserved-seats loop contains only keys contributed by bindings whose
allocation time is present and valid (not the `datetime.max` sentinel). -/
theorem preservation_match_skips_request :
    (∀ (st : Step2State) (r : Request) (k : Nat),
        r.timestamp = TS.valid k →
        lookupMem st.lookup (r.ticket_holder_name, k) = true →
        r.num_tickets ≤ lookupGet st.lookup (r.ticket_holder_name, k) →
        process_request st r =
          { st with
              lookup :=
                lookupDec st.lookup (r.ticket_holder_name, k) r.num_tickets } ∧
        lookupGet (process_request st r).lookup (r.ticket_holder_name, k) =
          lookupGet st.lookup (r.ticket_holder_name, k) - r.num_tickets) ∧
    (∀ (inv : Inventory) (ps : List PreservedSeat) (key : String × Nat),
        lookupMem (preserved_tickets_lookup inv ps) key = true →
        ∃ b ∈ ps, b.ticket_holder_name = key.1 ∧
          b.allocation_time = TS.valid key.2) := by
  constructor
  · intro st r k ht hmem hle
    have he := process_request_fulfilled st r k ht hmem hle
    refine ⟨he, ?_⟩
    rw [he]
    exact lookupGet_lookupDec st.lookup _ r.num_tickets
  · intro inv ps key h
    rcases step1_lookup_mem ps _ key h with h1 | h2
    · simp [lookupMem] at h1
    · exact h2

/-- C4 witness run: the request `r_c4` (two seats, key `("X", 5)`) is fully
covered by the three preserved tickets recorded in `st_c4`, and the lookup
built from `ps_w` holds the key `("X", 5)` contributed by a binding with a
valid allocation time. -/
theorem preservation_match_skips_request_witness :
    process_request st_c4 r_c4 =
      { st_c4 with lookup := lookupDec st_c4.lookup ("X", 5) 2 } ∧
    ∃ b ∈ ps_w, b.ticket_holder_name = "X" ∧ b.allocation_time = TS.valid 5 :=
  ⟨(preservation_match_skips_request.1 st_c4 r_c4 5 rfl (by decide) (by decide)).1,
    preservation_match_skips_request.2 inv_w ps_w ("X", 5) (by decide)⟩

/-- C5: if two requests A before B in the queue both fit only in the same
single block — every other block is smaller than either party size — and
that block has capacity for A but not for both, then `assign_seats` seats A
there (A's seats are the front of the block) and B ends up unassigned. -/
theorem queue_order_fairness (A B : Request) (pre post : Inventory)
    (name : BlockName) (seats : List SeatId)
    (hpreA : ∀ p ∈ pre, p.2.length < A.num_tickets)
    (hpreB : ∀ p ∈ pre, p.2.length < B.num_tickets)
    (hpostA : ∀ p ∈ post, p.2.length < A.num_tickets)
    (hpostB : ∀ p ∈ post, p.2.length < B.num_tickets)
    (hA : A.num_tickets ≤ seats.length)
    (hB : B.num_tickets ≤ seats.length)
    (hboth : seats.length < A.num_tickets + B.num_tickets) :
    (assign_seats [A, B] (pre ++ (name, seats) :: post) []).2.1 = [B] ∧
    assigned_at (assign_seats [A, B] (pre ++ (name, seats) :: post) []).1 name =
      (seats.take A.num_tickets).map (seat_info_of A) := by
  have hfbA := find_block_eq_of pre post name seats A.num_tickets hpreA hA
  have hfbB : find_block (pre ++ (name, seats.drop A.num_tickets) :: post)
      B.num_tickets = Option.none := by
    rw [find_block_none_iff]
    intro p hp
    rcases List.mem_append.mp hp with h1 | h2
    · exact hpreB p h1
    · rcases List.mem_cons.mp h2 with h3 | h4
      · subst h3
        simp only [List.length_drop]
        omega
      · exact hpostB p h4
  have eA : process_request
      ⟨(pre ++ (name, seats) :: post).map (fun p => (p.1, ([] : List SeatInfo))),
        pre ++ (name, seats) :: post, [], []⟩ A =
      ⟨setdefault_extend
          ((pre ++ (name, seats) :: post).map (fun p => (p.1, ([] : List SeatInfo))))
          name ((seats.take A.num_tickets).map (seat_info_of A)),
        pre ++ (name, seats.drop A.num_tickets) :: post, [], []⟩ := by
    rw [process_request_not_fulfilled _ _ (fulfilled_by_preserved_nil A)]
    unfold normal_assign
    dsimp only
    rw [hfbA]
  have eB : process_request
      ⟨setdefault_extend
          ((pre ++ (name, seats) :: post).map (fun p => (p.1, ([] : List SeatInfo))))
          name ((seats.take A.num_tickets).map (seat_info_of A)),
        pre ++ (name, seats.drop A.num_tickets) :: post, [], []⟩ B =
      ⟨setdefault_extend
          ((pre ++ (name, seats) :: post).map (fun p => (p.1, ([] : List SeatInfo))))
          name ((seats.take A.num_tickets).map (seat_info_of A)),
        pre ++ (name, seats.drop A.num_tickets) :: post, [], [B]⟩ := by
    rw [process_request_not_fulfilled _ _ (fulfilled_by_preserved_nil B)]
    unfold normal_assign
    dsimp only
    rw [hfbB]
    rfl
  constructor
  · show (process_request (process_request
        ⟨(pre ++ (name, seats) :: post).map (fun p => (p.1, ([] : List SeatInfo))),
          pre ++ (name, seats) :: post, [], []⟩ A) B).unassigned = [B]
    rw [eA, eB]
  · show assigned_at (process_request (process_request
        ⟨(pre ++ (name, seats) :: post).map (fun p => (p.1, ([] : List SeatInfo))),
          pre ++ (name, seats) :: post, [], []⟩ A) B).assigned name =
      (seats.take A.num_tickets).map (seat_info_of A)
    rw [eA, eB]
    dsimp only
    rw [assigned_at_setdefault_extend, assigned_at_init, List.nil_append]

/-- C5 witness run: with one three-seat block and two two-seat requests,
the earlier request A is seated on the first two seats and the later
request B is unassigned. -/
theorem queue_order_fairness_witness :
    (assign_seats [A_c5, B_c5]
        ([] ++ ("block-1", ["A1", "A2", "A3"]) :: []) []).2.1 = [B_c5] ∧
    assigned_at (assign_seats [A_c5, B_c5]
        ([] ++ ("block-1", ["A1", "A2", "A3"]) :: []) []).1 "block-1" =
      (["A1", "A2", "A3"].take A_c5.num_tickets).map (seat_info_of A_c5) :=
  queue_order_fairness A_c5 B_c5 [] [] "block-1" ["A1", "A2", "A3"]
    (by decide) (by decide) (by decide) (by decide)
    (by decide) (by decide) (by decide)

/-- C6: a request that is not preservation-satisfied and for which no block
has at least party-size seats available is appended unchanged to the
unassigned list, and the step leaves assigned seats, inventory and lookup
untouched (no partial seating). -/
theorem unsatisfiable_request_unassigned (st : Step2State) (r : Request)
    (hnp : fulfilled_by_preserved st.lookup r = false)
    (hnofit : ∀ p ∈ st.available, p.2.length < r.num_tickets) :
    process_request st r = { st with unassigned := st.unassigned ++ [r] } := by
  rw [process_request_not_fulfilled st r hnp]
  unfold normal_assign
  rw [(find_block_none_iff st.available r.num_tickets).mpr hnofit]

/-- C6 witness run: the spec's second example scenario — a four-seat
request against blocks of three and two seats goes to `unassigned` and the
inventory is unchanged. -/
theorem unsatisfiable_request_unassigned_witness :
    process_request st_c6 r_c6 =
      { st_c6 with unassigned := st_c6.unassigned ++ [r_c6] } :=
  unsatisfiable_request_unassigned st_c6 r_c6 (by decide) (by decide)

/-- C7: for every preserved binding the step always records the binding as
an Assignment under its claimed block; the removal flag is true exactly
when the first block carrying the claimed name holds the seat; when it is
false (seat absent or block unknown) the inventory is unchanged and the
warning counter increments; when it is true no warning is emitted and
exactly the first occurrence of the seat is removed from that block, the
order of all remaining seats being unaffected. -/
theorem preserved_binding_resolution (st : Step1State) (ps : PreservedSeat) :
    (process_preserved st ps).assigned =
      setdefault_append st.assigned ps.block (preserved_info ps) ∧
    ((inv_remove st.available ps.block ps.seat_number).2 = true ↔
      ∃ pre seats post, st.available = pre ++ (ps.block, seats) :: post ∧
        ps.block ∉ pre.map Prod.fst ∧ ps.seat_number ∈ seats) ∧
    ((inv_remove st.available ps.block ps.seat_number).2 = false →
      (process_preserved st ps).available = st.available ∧
      (process_preserved st ps).unmatched = st.unmatched + 1) ∧
    ((inv_remove st.available ps.block ps.seat_number).2 = true →
      (process_preserved st ps).unmatched = st.unmatched ∧
      ∃ pre l1 l2 post,
        st.available = pre ++ (ps.block, l1 ++ ps.seat_number :: l2) :: post ∧
        ps.block ∉ pre.map Prod.fst ∧ ps.seat_number ∉ l1 ∧
        (process_preserved st ps).available = pre ++ (ps.block, l1 ++ l2) :: post) := by
  refine ⟨rfl, inv_remove_found_iff _ _ _, ?_, ?_⟩
  · intro h
    refine ⟨inv_remove_not_found _ _ _ h, ?_⟩
    rw [process_preserved_unmatched, h]
    simp
  · intro h
    refine ⟨by rw [process_preserved_unmatched, h]; simp, ?_⟩
    exact inv_remove_found_decomp _ _ _ h

/-- C7 witness run: the binding `ps_c7` claims seat A2 of block-1 in
`st1_c7`; the seat is found, no warning is emitted, and A2 is removed from
the middle of the block with A1 left in place. -/
theorem preserved_binding_resolution_witness :
    (process_preserved st1_c7 ps_c7).assigned =
      setdefault_append st1_c7.assigned ps_c7.block (preserved_info ps_c7) ∧
    ((process_preserved st1_c7 ps_c7).unmatched = st1_c7.unmatched ∧
      ∃ pre l1 l2 post,
        st1_c7.available = pre ++ (ps_c7.block, l1 ++ ps_c7.seat_number :: l2) :: post ∧
        ps_c7.block ∉ pre.map Prod.fst ∧ ps_c7.seat_number ∉ l1 ∧
        (process_preserved st1_c7 ps_c7).available =
          pre ++ (ps_c7.block, l1 ++ l2) :: post) :=
  ⟨(preserved_binding_resolution st1_c7 ps_c7).1,
    (preserved_binding_resolution st1_c7 ps_c7).2.2.2 (by decide)⟩

/-- C8: `assign_seats` is a total function — every run returns an
assignment map, an unassigned list and a residual inventory (no exception
path exists in the embedding), and every record in the unassigned list is
one of the input requests: unsatisfiable requests degrade to output data,
never to errors. -/
theorem assign_seats_total (reqs : List Request) (inv : Inventory)
    (ps : List PreservedSeat) :
    ∃ assigned unassigned residual,
      assign_seats reqs inv ps = (assigned, unassigned, residual) ∧
      ∀ r ∈ unassigned, r ∈ reqs := by
  refine ⟨_, _, _, rfl, ?_⟩
  intro r hr
  rcases step2_unassigned_mem reqs
      ⟨(ps.foldl process_preserved
          ⟨inv.map (fun p => (p.1, ([] : List SeatInfo))), inv, [], 0⟩).assigned,
        (ps.foldl process_preserved
          ⟨inv.map (fun p => (p.1, ([] : List SeatInfo))), inv, [], 0⟩).available,
        (ps.foldl process_preserved
          ⟨inv.map (fun p => (p.1, ([] : List SeatInfo))), inv, [], 0⟩).lookup, []⟩
      r hr with h1 | h2
  · simp at h1
  · exact h2

/-- C8 witness run: a concrete total run of the engine. -/
theorem assign_seats_total_witness :
    ∃ assigned unassigned residual,
      assign_seats reqs_w inv_w ps_w = (assigned, unassigned, residual) ∧
      ∀ r ∈ unassigned, r ∈ reqs_w :=
  assign_seats_total reqs_w inv_w ps_w

/-- C9: `assign_seats` is deterministic — two runs on identical inputs
(same request order, same block order, same preserved bindings) produce
identical assignment maps, unassigned lists and residual inventories. -/
theorem assign_seats_deterministic (reqs1 reqs2 : List Request)
    (inv1 inv2 : Inventory) (ps1 ps2 : List PreservedSeat)
    (h1 : reqs1 = reqs2) (h2 : inv1 = inv2) (h3 : ps1 = ps2) :
    assign_seats reqs1 inv1 ps1 = assign_seats reqs2 inv2 ps2 := by
  subst h1
  subst h2
  subst h3
  rfl

/-- C9 witness run: two identical concrete runs coincide. -/
theorem assign_seats_deterministic_witness :
    assign_seats reqs_w inv_w ps_w = assign_seats reqs_w inv_w ps_w :=
  assign_seats_deterministic reqs_w reqs_w inv_w inv_w ps_w ps_w rfl rfl rfl

/-- C10: a request whose (holder-name, priority-key) pair is present in
the lookup but with a remaining count that is positive yet strictly less
than the party size behaves exactly as if no matching preservation
existed: the step equals the plain inventory allocation and the lookup —
including the matching entry — is left unchanged. -/
theorem partial_preservation_not_consumed (st : Step2State) (r : Request)
    (k : Nat) (ht : r.timestamp = TS.valid k)
    (hmem : lookupMem st.lookup (r.ticket_holder_name, k) = true)
    (hpos : 0 < lookupGet st.lookup (r.ticket_holder_name, k))
    (hlt : lookupGet st.lookup (r.ticket_holder_name, k) < r.num_tickets) :
    process_request st r = normal_assign st r ∧
    (process_request st r).lookup = st.lookup := by
  have hnp : fulfilled_by_preserved st.lookup r = false := by
    obtain ⟨ts, mn, thn, n, pm⟩ := r
    dsimp only at ht hmem hpos hlt
    subst ht
    simp only [fulfilled_by_preserved, Bool.and_eq_false_iff]
    right
    simp only [decide_eq_false_iff_not]
    omega
  have he := process_request_not_fulfilled st r hnp
  exact ⟨he, by rw [he]; exact normal_assign_lookup st r⟩

/-- C10 witness run: the lookup of `st_c10` holds one preserved ticket for
`("X", 5)` while `r_c10` asks for two seats; the entry is not consumed and
the request is seated from inventory. -/
theorem partial_preservation_not_consumed_witness :
    process_request st_c10 r_c10 = normal_assign st_c10 r_c10 ∧
    (process_request st_c10 r_c10).lookup = st_c10.lookup :=
  partial_preservation_not_consumed st_c10 r_c10 5 rfl (by decide) (by decide)
    (by decide)
